import Mathlib

/-!
Verification of the state-db pruning/canonicalization engine
(core/state-db/src: lib.rs, noncanonical.rs, pruning.rs).

Shallow-embedding conventions:

* Block hashes, node keys and database values are modelled as naturals;
  the source only requires them to be comparable, hashable and encodable.
* HashMaps are modelled as association lists with lookup/insert/erase
  helpers; VecDeque and Vec as lists.
* Journal metadata keys and their encoded records are modelled by the
  inductive types MetaKey / MetaVal, which stand for the injective byte
  encodings produced by to_meta_key and the codec.
* The offstate companion subsystem (offstate_values, OffstatePendingGC,
  the crate branch module with its RangeSet, and the branch-index
  component of the parents map and of pinned entries) is omitted: its
  supporting module is absent from the source tree and it is disjoint
  from the node-value, level, parent, pinning and pruning-window state
  that the verified properties are about.  The offstate journal keys of
  each overlay are kept, since they flow into commit metadata.
* Rust functions that can panic (index out of bounds, expect) are made
  total; the corresponding branch either returns a distinguished
  panicked outcome (overlay insert, where the branch is reachable) or
  leaves the state unchanged (branches unreachable under the invariants
  the source states as qed comments).
-/

deriving instance DecidableEq for Except

namespace StateDb

abbrev Key := Nat
abbrev BlockHash := Nat
abbrev DBValue := Nat

/-- Association-list lookup, modelling HashMap get. -/
def alookup {α β : Type} [DecidableEq α] : List (α × β) → α → Option β
  | [], _ => none
  | hd :: t, k => if hd.1 = k then some hd.2 else alookup t k

/-- Association-list removal, modelling HashMap remove. -/
def aerase {α β : Type} [DecidableEq α] : List (α × β) → α → List (α × β)
  | [], _ => []
  | hd :: t, k => if hd.1 = k then aerase t k else hd :: aerase t k

/-- Association-list insert-or-overwrite, modelling HashMap insert. -/
def ainsert {α β : Type} [DecidableEq α] : List (α × β) → α → β → List (α × β)
  | [], k, v => [(k, v)]
  | hd :: t, k, v => if hd.1 = k then (k, v) :: t else hd :: ainsert t k v

/-- In-place update of one list element, modelling Vec index assignment. -/
def modifyIdx {α : Type} (l : List α) (i : Nat) (f : α → α) : List α :=
  match l.get? i with
  | some a => l.set i (f a)
  | none => l

/-- A set of state node changes (ChangeSet in lib.rs). -/
structure ChangeSet where
  inserted : List (Key × DBValue) := []
  deleted : List Key := []
deriving DecidableEq

/-- Metadata keys produced by to_meta_key, one constructor per reserved
prefix; constructor injectivity models the injectivity of the byte
encoding. -/
inductive MetaKey
  | journal (block index : Nat)
  | offstateJournal (block index : Nat)
  | lastCanonical
  | pruningJournal (block : Nat)
  | offstatePruningJournal (block : Nat)
  | lastPruned
  | modeKey
deriving DecidableEq

/-- Persisted pruning-mode identifiers. -/
inductive PruningModeId
  | archive
  | archiveCanonical
  | constrainedId
deriving DecidableEq

/-- Encoded metadata values (journal records and pointers). -/
inductive MetaVal
  | journalRecord (hash parentHash : BlockHash)
      (inserted : List (Key × DBValue)) (deleted : List Key)
  | offstateJournalRecord (inserted : List (Key × DBValue)) (deleted : List Key)
  | lastCanonicalVal (hash : BlockHash) (number : Nat)
  | pruningJournalRecord (hash : BlockHash) (inserted deleted : List Key)
  | offstatePruningJournalRecord
  | prunedIndex (n : Nat)
  | modeVal (id : PruningModeId)
deriving DecidableEq

/-- Metadata changes of a commit. -/
structure MetaChangeSet where
  inserted : List (MetaKey × MetaVal) := []
  deleted : List MetaKey := []
deriving DecidableEq

/-- A set of changes to the backing database (CommitSet in lib.rs). -/
structure CommitSet where
  data : ChangeSet := {}
  meta : MetaChangeSet := {}
  kv : List (Key × Option DBValue) := []
deriving DecidableEq

/-- Errors of insert and canonicalize (Error in lib.rs; the database,
decoding and pruning-mode variants cannot arise in the in-memory
fragment embedded here). -/
inductive StateError
  | invalidBlock
  | invalidBlockNumber
  | invalidParent
deriving DecidableEq

/-- Per-tracked-block record (BlockOverlay in noncanonical.rs). -/
structure BlockOverlay where
  hash : BlockHash
  journalKey : MetaKey
  offstateJournalKey : MetaKey
  inserted : List Key
  deleted : List Key
deriving DecidableEq

/-- The non-canonical overlay state (NonCanonicalOverlay in
noncanonical.rs, without the offstate/branch companion fields). -/
structure NCOverlay where
  lastCanonicalized : Option (BlockHash × Nat) := none
  levels : List (List BlockOverlay) := []
  parents : List (BlockHash × BlockHash) := []
  pendingCanonicalizations : List BlockHash := []
  pendingInsertions : List BlockHash := []
  values : List (Key × (Nat × DBValue)) := []
  pinned : List (BlockHash × List (Key × DBValue)) := []
deriving DecidableEq

def NCOverlay.empty : NCOverlay := {}

/-- insert_values (noncanonical.rs 167-173): bump the refcount of every
inserted key, keeping the value already stored when present. -/
def insertValues (values : List (Key × (Nat × DBValue)))
    (inserted : List (Key × DBValue)) : List (Key × (Nat × DBValue)) :=
  inserted.foldl (fun vs kv =>
    match alookup vs kv.1 with
    | some (c, v0) => ainsert vs kv.1 (c + 1, v0)
    | none => ainsert vs kv.1 (1, kv.2)) values

/-- discard_values (noncanonical.rs 175-200).  The source returns early
when no snapshot target is supplied (into is none): in that case neither
the refcounts nor the map are touched.  When a snapshot is supplied the
refcount is decremented and entries reaching zero move into it. -/
def discardValues (values : List (Key × (Nat × DBValue))) (inserted : List Key)
    (into : Option (List (Key × DBValue))) :
    List (Key × (Nat × DBValue)) × Option (List (Key × DBValue)) :=
  match into with
  | none => (values, none)
  | some snap =>
    let res := inserted.foldl
      (fun (acc : List (Key × (Nat × DBValue)) × List (Key × DBValue)) k =>
        match alookup acc.1 k with
        | some (c, v) =>
          if c - 1 = 0 then (aerase acc.1 k, ainsert acc.2 k v)
          else (ainsert acc.1 k (c - 1, v), acc.2)
        | none => acc) (values, snap)
    (res.1, some res.2)

/-- discard_journals (noncanonical.rs 461-480): collect the journal keys
of the whole descendant subtree of a hash, walking the level suffix by
parent adjacency, depth first in source order.  The fuel argument makes
the recursion structural (hence kernel-computable); every call consumes
one unit, and callers pass the bound computed by journalsFuel, which
dominates the size of the call tree. -/
def discardJournalsAux (parents : List (BlockHash × BlockHash)) :
    Nat → List (List BlockOverlay) → List BlockOverlay → BlockHash → List MetaKey
  | 0, _, _, _ => []
  | fuel + 1, rest, lvl, hash =>
    match lvl with
    | [] => []
    | overlay :: lvlTail =>
      let here :=
        if alookup parents overlay.hash = some hash then
          [overlay.journalKey, overlay.offstateJournalKey] ++
            (match rest with
             | [] => []
             | nextLevel :: deeper =>
               discardJournalsAux parents fuel deeper nextLevel overlay.hash)
        else []
      here ++ discardJournalsAux parents fuel rest lvlTail hash

/-- Fuel bound for discardJournalsAux: the level sizes plus the level
count dominate the recursion depth. -/
def journalsFuel (rest : List (List BlockOverlay)) (lvl : List BlockOverlay) : Nat :=
  lvl.length + (rest.map (fun l => l.length + 1)).sum + 1

/-- Subtree journal keys starting from a given level index. -/
def NCOverlay.discardJournals (s : NCOverlay) (levelIndex : Nat) (hash : BlockHash) :
    List MetaKey :=
  match s.levels.drop levelIndex with
  | [] => []
  | lvl :: rest => discardJournalsAux s.parents (journalsFuel rest lvl) rest lvl hash

/-- discard_descendants (noncanonical.rs 225-258): drop from the level at
index every overlay whose parent is the given hash, releasing its value
references (into the snapshot of the pinned parent hash when one
exists), then recurse into the next level for every dropped block.  The
fuel argument makes the recursion structural; callers pass
levels.length + 1, which always suffices since every recursive call
increases the index and the recursion stops past the last level. -/
def discardDescendantsFuel (fuel : Nat) (s : NCOverlay) (index : Nat) (hash : BlockHash) :
    NCOverlay :=
  match fuel with
  | 0 => s
  | fuel1 + 1 =>
    match s.levels.get? index with
    | none => s
    | some level =>
      let step := level.foldl
        (fun (acc : List BlockOverlay × NCOverlay × List BlockHash) overlay =>
          match alookup acc.2.1.parents overlay.hash with
          | some parent =>
            if parent = hash then
              let s1 := acc.2.1
              let s2 := { s1 with parents := aerase s1.parents overlay.hash }
              let dv := discardValues s2.values overlay.inserted (alookup s2.pinned hash)
              let s3 := { s2 with
                          values := dv.1,
                          pinned := (match dv.2 with
                                     | some sn => ainsert s2.pinned hash sn
                                     | none => s2.pinned) }
              (acc.1, s3, acc.2.2 ++ [overlay.hash])
            else (acc.1 ++ [overlay], acc.2.1, acc.2.2)
          | none => (acc.1 ++ [overlay], acc.2.1, acc.2.2))
        ([], s, [])
      let s4 := { step.2.1 with levels := step.2.1.levels.set index step.1 }
      step.2.2.foldl (fun st h => discardDescendantsFuel fuel1 st (index + 1) h) s4

/-- front_block_number (noncanonical.rs 482-484). -/
def NCOverlay.frontBlockNumber (s : NCOverlay) : Nat :=
  match s.lastCanonicalized with
  | some (_, n) => n + 1
  | none => 0

/-- last_canonicalized_block_number (noncanonical.rs 486-492). -/
def NCOverlay.lastCanonicalizedBlockNumber (s : NCOverlay) : Option Nat :=
  match s.lastCanonicalized with
  | some (_, n) => some (n + s.pendingCanonicalizations.length)
  | none =>
    if s.pendingCanonicalizations.isEmpty then none
    else some s.pendingCanonicalizations.length

/-- Outcome of the overlay insert: a success carries the new state and
commit, a failure carries the (unmodified) state threaded through the
early return, and panicked marks the reachable index-out-of-bounds panic
of the level lookup. -/
inductive InsertResult
  | ok (st : NCOverlay) (commit : CommitSet)
  | err (e : StateError) (st : NCOverlay)
  | panicked (st : NCOverlay)
deriving DecidableEq

def InsertResult.isOk : InsertResult → Bool
  | InsertResult.ok _ _ => true
  | _ => false

/-- The state carried by any insert outcome. -/
def InsertResult.state : InsertResult → NCOverlay
  | InsertResult.ok st _ => st
  | InsertResult.err _ st => st
  | InsertResult.panicked st => st

/-- Tail of insert (noncanonical.rs 399-458) after validation: build the
overlay record, append it to the selected level, journal it, bump the
value refcounts and record the pending insertion. -/
def insertFinish (s : NCOverlay) (commit : CommitSet) (hash : BlockHash)
    (number : Nat) (parentHash : BlockHash) (changeset : ChangeSet)
    (levels : List (List BlockOverlay)) (li : Nat) : InsertResult :=
  let level := (levels.get? li).getD []
  let index := level.length
  let jk := MetaKey.journal number index
  let ojk := MetaKey.offstateJournal number index
  let overlay : BlockOverlay :=
    { hash := hash, journalKey := jk, offstateJournalKey := ojk,
      inserted := changeset.inserted.map Prod.fst, deleted := changeset.deleted }
  InsertResult.ok
    { s with levels := modifyIdx levels li (fun lvl => lvl ++ [overlay]),
             parents := ainsert s.parents hash parentHash,
             values := insertValues s.values changeset.inserted,
             pendingInsertions := s.pendingInsertions ++ [hash] }
    { commit with meta := { commit.meta with inserted := commit.meta.inserted ++
        [(jk, MetaVal.journalRecord hash parentHash changeset.inserted changeset.deleted),
         (ojk, MetaVal.offstateJournalRecord [] [])] } }

/-- Level selection of insert (noncanonical.rs 399-405): push a fresh
back level when empty or exactly one past the window, otherwise index
into the existing level; an index past the window panics. -/
def insertCore (s : NCOverlay) (commit : CommitSet) (front : Nat) (hash : BlockHash)
    (number : Nat) (parentHash : BlockHash) (changeset : ChangeSet) : InsertResult :=
  if s.levels = [] ∨ number = front + s.levels.length then
    insertFinish s commit hash number parentHash changeset (s.levels ++ [[]]) s.levels.length
  else if number - front < s.levels.length then
    insertFinish s commit hash number parentHash changeset s.levels (number - front)
  else InsertResult.panicked s

/-- insert (noncanonical.rs 366-459).  On a fresh overlay (no levels, no
canonicalized block) any positive number bootstraps the last-canonical
pointer from the parent; with a last-canonical block present the number
must fall in the window and the parent must be the last canonical hash
(at the front) or tracked (deeper); otherwise no validation happens. -/
def NCOverlay.insert (s : NCOverlay) (hash : BlockHash) (number : Nat)
    (parentHash : BlockHash) (changeset : ChangeSet) : InsertResult :=
  if s.levels = [] ∧ s.lastCanonicalized = none ∧ 0 < number then
    insertCore { s with lastCanonicalized := some (parentHash, number - 1) }
      { meta := { inserted :=
          [(MetaKey.lastCanonical, MetaVal.lastCanonicalVal parentHash (number - 1))] } }
      s.frontBlockNumber hash number parentHash changeset
  else
    match s.lastCanonicalized with
    | some (lh, ln) =>
      if number < s.frontBlockNumber ∨
          s.frontBlockNumber + s.levels.length + 1 ≤ number then
        InsertResult.err StateError.invalidBlockNumber s
      else if number = s.frontBlockNumber then
        if lh = parentHash ∧ ln = number - 1 then
          insertCore s {} s.frontBlockNumber hash number parentHash changeset
        else InsertResult.err StateError.invalidParent s
      else if (alookup s.parents parentHash).isSome then
        insertCore s {} s.frontBlockNumber hash number parentHash changeset
      else InsertResult.err StateError.invalidParent s
    | none => insertCore s {} s.frontBlockNumber hash number parentHash changeset

/-- Fixed fallback overlay record for lookups justified by qed
invariants in the source; never reachable on validated indices. -/
def defaultOverlay : BlockOverlay :=
  { hash := 0, journalKey := MetaKey.lastCanonical,
    offstateJournalKey := MetaKey.lastCanonical, inserted := [], deleted := [] }

/-- canonicalize (noncanonical.rs 508-552): locate the hash at the
current front level, mark every journal of the level and of the sibling
subtrees for metadata deletion, materialize the winner into the commit,
append the last-canonical pointer and record the pending
canonicalization.  No structural state change happens here.  The source
returns unit; we return the computed canonicalized number, which the
coordinator reports. -/
def NCOverlay.canonicalize (s : NCOverlay) (hash : BlockHash) (commit : CommitSet) :
    Except StateError Nat × NCOverlay × CommitSet :=
  match s.levels.get? s.pendingCanonicalizations.length with
  | none => (Except.error StateError.invalidBlock, s, commit)
  | some level =>
    match level.findIdx? (fun o => decide (o.hash = hash)) with
    | none => (Except.error StateError.invalidBlock, s, commit)
    | some index =>
      let discardedJournals := (level.enum).foldl
        (fun acc p =>
          let sub :=
            if p.1 ≠ index then
              s.discardJournals (s.pendingCanonicalizations.length + 1) p.2.hash
            else []
          acc ++ sub ++ [p.2.journalKey, p.2.offstateJournalKey]) []
      let overlay := (level.get? index).getD defaultOverlay
      let canonNumber := s.frontBlockNumber + s.pendingCanonicalizations.length
      let commit1 := { commit with
        data := { inserted := commit.data.inserted ++
                    overlay.inserted.map
                      (fun k => (k, ((alookup s.values k).map Prod.snd).getD 0)),
                  deleted := commit.data.deleted ++ overlay.deleted },
        meta := { inserted := commit.meta.inserted ++
                    [(MetaKey.lastCanonical, MetaVal.lastCanonicalVal hash canonNumber)],
                  deleted := commit.meta.deleted ++ discardedJournals } }
      (Except.ok canonNumber,
       { s with pendingCanonicalizations := s.pendingCanonicalizations ++ [hash] },
       commit1)

/-- One iteration of the drain loop of apply_canonicalizations
(noncanonical.rs 567-598): pop the front level, remove every overlay of
it from the parents map, recursively discard the descendants of the
non-winning overlays, and release the value references of every overlay
of the level (into the snapshot of its pinned hash when pinned). -/
def applyOneCanon (s : NCOverlay) (hash : BlockHash) : NCOverlay :=
  match s.levels with
  | [] => s
  | level :: rest =>
    let s0 := { s with levels := rest }
    match level.findIdx? (fun o => decide (o.hash = hash)) with
    | none => s0
    | some index =>
      (level.enum).foldl
        (fun st (p : Nat × BlockOverlay) =>
          let overlay := p.2
          let st1 := { st with parents := aerase st.parents overlay.hash }
          let st2 :=
            if p.1 ≠ index then
              discardDescendantsFuel (st1.levels.length + 1) st1 0 overlay.hash
            else st1
          let dv := discardValues st2.values overlay.inserted (alookup st2.pinned overlay.hash)
          { st2 with
            values := dv.1,
            pinned := (match dv.2 with
                       | some sn => ainsert st2.pinned overlay.hash sn
                       | none => st2.pinned) }) s0

/-- apply_canonicalizations (noncanonical.rs 554-604), without the
omitted branch finalization and offstate garbage collection. -/
def NCOverlay.applyCanonicalizations (s : NCOverlay) : NCOverlay :=
  let last := s.pendingCanonicalizations.getLast?
  let count := s.pendingCanonicalizations.length
  let s1 := s.pendingCanonicalizations.foldl applyOneCanon s
  let s2 := { s1 with pendingCanonicalizations := [] }
  match last with
  | some h =>
    { s2 with lastCanonicalized := some (h,
        (match s.lastCanonicalized with
         | some (_, n) => n + count
         | none => count - 1)) }
  | none => s2

/-- get (noncanonical.rs 607-617): shared value map first, then the
pinned snapshots. -/
def NCOverlay.get (s : NCOverlay) (key : Key) : Option DBValue :=
  match alookup s.values key with
  | some (_, v) => some v
  | none =>
    s.pinned.foldl (fun acc p =>
      match acc with
      | some v => some v
      | none => alookup p.2 key) none

/-- have_block (noncanonical.rs 636-640). -/
def NCOverlay.haveBlock (s : NCOverlay) (hash : BlockHash) : Bool :=
  ((alookup s.parents hash).isSome || s.pendingInsertions.contains hash)
    && !(s.pendingCanonicalizations.contains hash)

/-- revert_one (noncanonical.rs 643-656): pop the most recent level,
delete its journals and release its references (the source passes no
snapshot target, so discard_values returns early). -/
def NCOverlay.revertOne (s : NCOverlay) : Option CommitSet × NCOverlay :=
  match s.levels.getLast? with
  | none => (none, s)
  | some level =>
    let s0 := { s with levels := s.levels.dropLast }
    let res := level.foldl
      (fun (acc : List MetaKey × NCOverlay) overlay =>
        let st := acc.2
        let st1 := { st with parents := aerase st.parents overlay.hash }
        let dv := discardValues st1.values overlay.inserted none
        (acc.1 ++ [overlay.journalKey], { st1 with values := dv.1 })) ([], s0)
    (some { meta := { deleted := res.1 } }, res.2)

/-- revert_insertions (noncanonical.rs 658-676): walk the pending
insertions in reverse, popping each hash from the back of its level
(again with no snapshot target for discard_values). -/
def NCOverlay.revertInsertions (s : NCOverlay) : NCOverlay :=
  let s1 := s.pendingInsertions.reverse.foldl
    (fun st hash =>
      let st1 := { st with parents := aerase st.parents hash }
      match st1.levels.findIdx?
          (fun level => decide ((level.getLast?).map BlockOverlay.hash = some hash)) with
      | none => st1
      | some li =>
        let level := (st1.levels.get? li).getD []
        let overlayIns := ((level.getLast?).map BlockOverlay.inserted).getD []
        let level1 := level.dropLast
        let dv := discardValues st1.values overlayIns none
        let st2 := { st1 with values := dv.1, levels := st1.levels.set li level1 }
        if level1 = [] then { st2 with levels := st2.levels.dropLast } else st2) s
  { s1 with pendingInsertions := [] }

/-- apply_pending (noncanonical.rs 679-682). -/
def NCOverlay.applyPending (s : NCOverlay) : NCOverlay :=
  { s.applyCanonicalizations with pendingInsertions := [] }

/-- revert_pending (noncanonical.rs 685-688). -/
def NCOverlay.revertPending (s : NCOverlay) : NCOverlay :=
  NCOverlay.revertInsertions { s with pendingCanonicalizations := [] }

/-- pin (noncanonical.rs 691-696): only hashes present in the parents
map get a (fresh, empty) snapshot. -/
def NCOverlay.pin (s : NCOverlay) (hash : BlockHash) : NCOverlay :=
  if (alookup s.parents hash).isSome then
    { s with pinned := ainsert s.pinned hash [] }
  else s

/-- unpin (noncanonical.rs 706-708). -/
def NCOverlay.unpin (s : NCOverlay) (hash : BlockHash) : NCOverlay :=
  { s with pinned := aerase s.pinned hash }

/-! ### Pruning window (pruning.rs) -/

/-- Per-canonicalized-block record (DeathRow in pruning.rs; the deleted
HashSet is a deduplicated list, and the lazily-loaded offstate keys are
omitted with the offstate subsystem). -/
structure DeathRow where
  hash : BlockHash
  journalKey : MetaKey
  offstateJournalKey : MetaKey
  deleted : List Key
deriving DecidableEq

/-- The pruning window state (RefWindow in pruning.rs). -/
structure RefWindow where
  deathRows : List DeathRow := []
  deathIndex : List (Key × Nat) := []
  pendingNumber : Nat := 0
  pendingCanonicalizations : Nat := 0
  pendingPrunings : Nat := 0
deriving DecidableEq

/-- One step of the reinsertion scan of import (pruning.rs 146-151):
a key found in the death index is removed from the index and from the
death row it was scheduled in. -/
def importScan (w : RefWindow) (k : Key) : RefWindow :=
  match alookup w.deathIndex k with
  | some block =>
    { w with
      deathIndex := aerase w.deathIndex k,
      deathRows := modifyIdx w.deathRows (block - w.pendingNumber)
        (fun r => { r with deleted := r.deleted.filter (fun x => decide (x ≠ k)) }) }
  | none => w

/-- import (pruning.rs 137-169): cancel the scheduled deletion of every
reinserted key, then index the newly deleted keys under a fresh row and
push the row. -/
def RefWindow.importBlock (w : RefWindow) (hash : BlockHash) (jk ojk : MetaKey)
    (inserted deleted : List Key) : RefWindow :=
  let w1 := inserted.foldl importScan w
  let importedBlock := w1.pendingNumber + w1.deathRows.length
  let w2 := { w1 with
    deathIndex := deleted.foldl (fun idx k => ainsert idx k importedBlock) w1.deathIndex }
  { w2 with deathRows := w2.deathRows ++
      [{ hash := hash, journalKey := jk, offstateJournalKey := ojk,
         deleted := deleted.dedup }] }

/-- window_size (pruning.rs 171-173). -/
def RefWindow.windowSize (w : RefWindow) : Nat :=
  w.deathRows.length - w.pendingPrunings

/-- next_hash (pruning.rs 175-177). -/
def RefWindow.nextHash (w : RefWindow) : Option BlockHash :=
  (w.deathRows.get? w.pendingPrunings).map DeathRow.hash

/-- mem_used (pruning.rs 179-181): the source returns 0. -/
def RefWindow.memUsed (_ : RefWindow) : Nat := 0

/-- pending (pruning.rs 183-185). -/
def RefWindow.pending (w : RefWindow) : Nat :=
  w.pendingNumber + w.pendingPrunings

/-- have_block (pruning.rs 187-189). -/
def RefWindow.haveBlock (w : RefWindow) (hash : BlockHash) : Bool :=
  (w.deathRows.drop w.pendingPrunings).any (fun r => decide (r.hash = hash))

/-- prune_one (pruning.rs 194-219), restricted to the CommitSet half of
CommitSetCanonical (the kv prune component belongs to the omitted
offstate subsystem): move the keys of the row at pendingPrunings into
the commit deletions, journal the progress, delete the row journal and
advance the counter; a no-op when nothing is left to prune. -/
def RefWindow.pruneOne (w : RefWindow) (c : CommitSet) : RefWindow × CommitSet :=
  match w.deathRows.get? w.pendingPrunings with
  | some pruned =>
    let index := w.pendingNumber + w.pendingPrunings
    let c1 := { c with
      data := { c.data with deleted := c.data.deleted ++ pruned.deleted },
      meta := { inserted := c.meta.inserted ++ [(MetaKey.lastPruned, MetaVal.prunedIndex index)],
                deleted := c.meta.deleted ++ [pruned.journalKey, pruned.offstateJournalKey] } }
    ({ w with pendingPrunings := w.pendingPrunings + 1 }, c1)
  | none => (w, c)

/-- note_canonical (pruning.rs 222-249): journal the inserted keys and
the drained deletions of the commit, import them into the window and
count the pending canonicalization. -/
def RefWindow.noteCanonical (w : RefWindow) (hash : BlockHash) (c : CommitSet) :
    RefWindow × CommitSet :=
  let inserted := c.data.inserted.map Prod.fst
  let deleted := c.data.deleted
  let block := w.pendingNumber + w.deathRows.length
  let jk := MetaKey.pruningJournal block
  let ojk := MetaKey.offstatePruningJournal block
  let c1 := { c with
    data := { c.data with deleted := [] },
    meta := { c.meta with inserted := c.meta.inserted ++
        [(jk, MetaVal.pruningJournalRecord hash inserted deleted),
         (ojk, MetaVal.offstatePruningJournalRecord)] } }
  let w1 := w.importBlock hash jk ojk inserted deleted
  ({ w1 with pendingCanonicalizations := w1.pendingCanonicalizations + 1 }, c1)

/-- One pop of the apply loop of apply_pending (pruning.rs 254-261). -/
def applyPrune (w : RefWindow) : RefWindow :=
  match w.deathRows with
  | [] => w
  | pruned :: rest =>
    { w with
      deathRows := rest,
      deathIndex := pruned.deleted.foldl (fun idx k => aerase idx k) w.deathIndex,
      pendingNumber := w.pendingNumber + 1 }

/-- apply_pending (pruning.rs 252-263). -/
def RefWindow.applyPending (w : RefWindow) : RefWindow :=
  let w1 := { w with pendingCanonicalizations := 0 }
  let w2 := Nat.repeat applyPrune w.pendingPrunings w1
  { w2 with pendingPrunings := 0 }

/-- revert_pending (pruning.rs 266-276): truncate the rows added since
the last apply and drop the index entries pointing past the new end; the
source comment notes that keys a pending import removed from earlier
rows are not restored. -/
def RefWindow.revertPending (w : RefWindow) : RefWindow :=
  let rows := w.deathRows.take (w.deathRows.length - w.pendingCanonicalizations)
  let newMax := rows.length + w.pendingNumber
  { w with
    deathRows := rows,
    deathIndex := w.deathIndex.filter (fun p => decide (p.2 < newMax)),
    pendingCanonicalizations := 0,
    pendingPrunings := 0 }

/-! ### Coordinator (lib.rs) -/

/-- Pruning constraints (lib.rs 171-178). -/
structure Constraints where
  maxBlocks : Option Nat := none
  maxMem : Option Nat := none
deriving DecidableEq

/-- Pruning mode (lib.rs 180-189). -/
inductive PruningMode
  | constrained (c : Constraints)
  | archiveAll
  | archiveCanonical
deriving DecidableEq

/-- Persisted mode identifier (lib.rs 209-215). -/
def PruningMode.idOf : PruningMode → PruningModeId
  | PruningMode.archiveAll => PruningModeId.archive
  | PruningMode.archiveCanonical => PruningModeId.archiveCanonical
  | PruningMode.constrained _ => PruningModeId.constrainedId

/-- Pin error (lib.rs 111-115). -/
inductive PinError
  | invalidBlock
deriving DecidableEq

/-- Coordinator state (StateDbSync in lib.rs 230-235). -/
structure StateDbSync where
  mode : PruningMode
  nonCanonical : NCOverlay := {}
  pruning : Option RefWindow := none
  pinned : List (BlockHash × Nat) := []
deriving DecidableEq

/-- StateDbSync::new (lib.rs 238-260) over an empty metadata store:
journal replay over the empty journal yields a fresh overlay and, for
the constrained mode, a fresh window.  (The source leaves the
constrained-with-max-mem combination unimplemented; every use here
passes maxMem none.) -/
def StateDbSync.openEmpty (mode : PruningMode) : StateDbSync :=
  { mode := mode,
    pruning := (match mode with
                | PruningMode.constrained _ => some {}
                | _ => none) }

/-- Outcome of insert_block, threading the coordinator state. -/
inductive DbInsertResult
  | ok (st : StateDbSync) (c : CommitSet)
  | err (e : StateError) (st : StateDbSync)
  | panicked (st : StateDbSync)
deriving DecidableEq

/-- insert_block (lib.rs 275-307): ArchiveAll clears the deletions and
finalizes immediately; the other modes delegate to the overlay and
append the mode metadata (written with block number 0). -/
def StateDbSync.insertBlock (s : StateDbSync) (hash : BlockHash) (number : Nat)
    (parentHash : BlockHash) (changeset : ChangeSet) : DbInsertResult :=
  let meta : List (MetaKey × MetaVal) :=
    if number = 0 then [(MetaKey.modeKey, MetaVal.modeVal s.mode.idOf)] else []
  match s.mode with
  | PruningMode.archiveAll =>
    DbInsertResult.ok s
      { data := { changeset with deleted := [] }, meta := { inserted := meta } }
  | _ =>
    match s.nonCanonical.insert hash number parentHash changeset with
    | InsertResult.ok nc c =>
      DbInsertResult.ok { s with nonCanonical := nc }
        { c with meta := { c.meta with inserted := c.meta.inserted ++ meta } }
    | InsertResult.err e nc => DbInsertResult.err e { s with nonCanonical := nc }
    | InsertResult.panicked nc => DbInsertResult.panicked { s with nonCanonical := nc }

/-- The continue condition of the prune loop (lib.rs 352-364): the loop
keeps pruning while the window exceeds maxBlocks (default 0), the memory
constraint is not exceeded, and the next row to prune is not pinned; it
stops at the first failing condition. -/
def pruneContinue (cons : Constraints) (pinnedM : List (BlockHash × Nat))
    (w : RefWindow) : Bool :=
  !(decide (w.windowSize ≤ cons.maxBlocks.getD 0)) &&
  !(match cons.maxMem with
    | some m => decide (m < w.memUsed)
    | none => false) &&
  !(match w.nextHash with
    | some hh => (alookup pinnedM hh).isSome
    | none => false)

/-- The prune loop of StateDbSync::prune (lib.rs 350-368), with a fuel
argument making the recursion structural.  Each prune strictly shrinks
the window, so the fuel passed by pruneLoop (windowSize + 1) never runs
out before a stop condition holds; pruneLoopRuns proves this. -/
def pruneLoopFuel (cons : Constraints) (pinnedM : List (BlockHash × Nat)) :
    Nat → RefWindow → CommitSet → RefWindow × CommitSet
  | 0, w, c => (w, c)
  | fuel + 1, w, c =>
    if pruneContinue cons pinnedM w then
      pruneLoopFuel cons pinnedM fuel (w.pruneOne c).1 (w.pruneOne c).2
    else (w, c)

/-- The prune loop entry point. -/
def pruneLoop (cons : Constraints) (pinnedM : List (BlockHash × Nat))
    (w : RefWindow) (c : CommitSet) : RefWindow × CommitSet :=
  pruneLoopFuel cons pinnedM (w.windowSize + 1) w c

/-- One prune iteration viewed as a step on the window-commit pair. -/
def pruneStep (p : RefWindow × CommitSet) : RefWindow × CommitSet :=
  p.1.pruneOne p.2

/-- StateDbSync::prune dispatch (lib.rs 350-352). -/
def statePrune (s : StateDbSync) (c : CommitSet) : StateDbSync × CommitSet :=
  match s.pruning, s.mode with
  | some w, PruningMode.constrained cons =>
    let r := pruneLoop cons s.pinned w c
    ({ s with pruning := some r.1 }, r.2)
  | _, _ => (s, c)

/-- canonicalize_block (lib.rs 309-331). -/
def StateDbSync.canonicalizeBlock (s : StateDbSync) (hash : BlockHash) :
    Except StateError Nat × StateDbSync × CommitSet :=
  if s.mode = PruningMode.archiveAll then (Except.ok 0, s, {})
  else
    match s.nonCanonical.canonicalize hash {} with
    | (Except.error e, nc, c) => (Except.error e, { s with nonCanonical := nc }, c)
    | (Except.ok n, nc, c) =>
      let c1 := if s.mode = PruningMode.archiveCanonical
                then { c with data := { c.data with deleted := [] } } else c
      let wc := (match s.pruning with
                 | some w =>
                   let r := w.noteCanonical hash c1
                   (some r.1, r.2)
                 | none => (none, c1))
      let s1 := { s with nonCanonical := nc, pruning := wc.1 }
      let r := statePrune s1 wc.2
      (Except.ok n, r.1, r.2)

/-- best_canonical (lib.rs 333-335). -/
def StateDbSync.bestCanonical (s : StateDbSync) : Option Nat :=
  s.nonCanonical.lastCanonicalizedBlockNumber

/-- is_pruned (lib.rs 337-348). -/
def StateDbSync.isPruned (s : StateDbSync) (hash : BlockHash) (number : Nat) : Bool :=
  match s.mode with
  | PruningMode.archiveAll => false
  | _ =>
    if (match s.bestCanonical with
        | some c => decide (c < number)
        | none => true) then
      !(s.nonCanonical.haveBlock hash)
    else
      match s.pruning with
      | none => false
      | some p => decide (number < p.pending) || !(p.haveBlock hash)

/-- Whether a hash is tracked by the overlay or by the window pending
rows — the validation test of pin (lib.rs 395-397). -/
def trackedAnywhere (s : StateDbSync) (hash : BlockHash) : Bool :=
  s.nonCanonical.haveBlock hash ||
    (match s.pruning with
     | some p => p.haveBlock hash
     | none => false)

/-- pin (lib.rs 391-410): ArchiveAll accepts unconditionally; otherwise
the hash must be tracked, the overlay snapshot is opened on the 0-to-1
transition, and the hold count is bumped. -/
def StateDbSync.pinBlock (s : StateDbSync) (hash : BlockHash) :
    Except PinError Unit × StateDbSync :=
  match s.mode with
  | PruningMode.archiveAll => (Except.ok (), s)
  | _ =>
    if trackedAnywhere s hash then
      let refs := (alookup s.pinned hash).getD 0
      let s1 := if refs = 0 then { s with nonCanonical := s.nonCanonical.pin hash } else s
      (Except.ok (), { s1 with pinned := ainsert s1.pinned hash (refs + 1) })
    else (Except.error PinError.invalidBlock, s)

/-- unpin (lib.rs 412-426). -/
def StateDbSync.unpinBlock (s : StateDbSync) (hash : BlockHash) : StateDbSync :=
  match alookup s.pinned hash with
  | some refs =>
    if refs - 1 = 0 then
      { s with pinned := aerase s.pinned hash, nonCanonical := s.nonCanonical.unpin hash }
    else { s with pinned := ainsert s.pinned hash (refs - 1) }
  | none => s

/-- revert_one (lib.rs 373-382). -/
def StateDbSync.revertOne (s : StateDbSync) : Option CommitSet × StateDbSync :=
  match s.mode with
  | PruningMode.archiveAll => (some {}, s)
  | _ =>
    let r := s.nonCanonical.revertOne
    (r.1, { s with nonCanonical := r.2 })

/-- apply_pending (lib.rs 462-474). -/
def StateDbSync.applyPending (s : StateDbSync) : StateDbSync :=
  { s with nonCanonical := s.nonCanonical.applyPending,
           pruning := s.pruning.map RefWindow.applyPending }

/-- revert_pending (lib.rs 476-481). -/
def StateDbSync.revertPending (s : StateDbSync) : StateDbSync :=
  { s with pruning := s.pruning.map RefWindow.revertPending,
           nonCanonical := s.nonCanonical.revertPending }

/-! ### Backing-store test fixtures -/

/-- Modelled from the spec: the external backing store with its atomic
commit (section 6: the caller applies a CommitSet to the node-data and
metadata columns; the in-memory TestDb of the crate test module is not
among the sources).  A commit applies the insertions and then the
deletions of each column. -/
structure TestDb where
  data : List (Key × DBValue) := []
  meta : List (MetaKey × MetaVal) := []
deriving DecidableEq

/-- Modelled from the spec: applying a commit to the store. -/
def TestDb.commit (db : TestDb) (c : CommitSet) : TestDb :=
  { data := c.data.deleted.foldl (fun d k => aerase d k)
      (c.data.inserted.foldl (fun d kv => ainsert d kv.1 kv.2) db.data),
    meta := c.meta.deleted.foldl (fun d k => aerase d k)
      (c.meta.inserted.foldl (fun d kv => ainsert d kv.1 kv.2) db.meta) }

/-- Modelled from the spec: a store seeded with the given keys, each
mapped to itself as value (make_db of the crate test module). -/
def makeDb (keys : List Nat) : TestDb :=
  { data := keys.map (fun k => (k, k)) }

/-- Modelled from the spec: a changeset inserting and deleting the given
keys (make_changeset of the crate test module). -/
def makeChangeset (ins del : List Nat) : ChangeSet :=
  { inserted := ins.map (fun k => (k, k)), deleted := del }

/-! ### Concrete executions used by the claims -/

/-- Scenario step: insert a block and commit the produced set. -/
def stepInsert (p : TestDb × StateDbSync) (hash number parent : Nat)
    (ins del : List Nat) : TestDb × StateDbSync :=
  match p.2.insertBlock hash number parent (makeChangeset ins del) with
  | DbInsertResult.ok st c => (p.1.commit c, st)
  | DbInsertResult.err _ st => (p.1, st)
  | DbInsertResult.panicked st => (p.1, st)

/-- Scenario step: canonicalize a block and commit the produced set. -/
def stepCanon (p : TestDb × StateDbSync) (hash : Nat) : TestDb × StateDbSync :=
  match p.2.canonicalizeBlock hash with
  | (Except.ok _, st, c) => (p.1.commit c, st)
  | (Except.error _, st, _) => (p.1, st)

/-- Scenario step: apply pending changes in memory. -/
def stepApply (p : TestDb × StateDbSync) : TestDb × StateDbSync :=
  (p.1, p.2.applyPending)

/-- The make_test_db scenario of lib.rs 599-668, with pruning mode
Constrained (maxBlocks 1): blocks 1, 21, 22, 3 inserted, pending
applied, block 1 canonicalized and applied, block 4 inserted and
applied, blocks 21 and 3 canonicalized, each applied, with a store
commit after every returned set. -/
def scenarioRun : TestDb × StateDbSync :=
  let p0 := (makeDb [91, 921, 922, 93, 94],
             StateDbSync.openEmpty (PruningMode.constrained { maxBlocks := some 1 }))
  let p1 := stepInsert p0 1 1 0 [1] [91]
  let p2 := stepInsert p1 21 2 1 [21] [921, 1]
  let p3 := stepInsert p2 22 2 1 [22] [922]
  let p4 := stepInsert p3 3 3 21 [3] [93]
  let p5 := stepApply p4
  let p6 := stepApply (stepCanon p5 1)
  let p7 := stepApply (stepInsert p6 4 4 3 [4] [94])
  let p8 := stepApply (stepCanon p7 21)
  stepApply (stepCanon p8 3)

/-- Number of live BlockOverlays in the levels referencing a key,
counted with multiplicity over the inserted lists. -/
def overlayRefCount (s : NCOverlay) (k : Key) : Nat :=
  (s.levels.map (fun level => (level.map (fun o => o.inserted.count k)).sum)).sum

/-- Concrete run for the refcount invariant: key 5 inserted by a block
whose sibling wins and whose subtree is discarded by apply. -/
def c1run : NCOverlay :=
  ((((NCOverlay.empty.insert 1 1 0 { inserted := [(5, 55)] }).state.insert
      2 1 0 {}).state.canonicalize 2 {}).2.1).applyPending

/-- Concrete run for fork discard: siblings 1 and 2 at the front, child
3 of 2; block 1 wins, the subtree of 2 is discarded. -/
def c3run : NCOverlay :=
  (((((NCOverlay.empty.insert 1 1 0 { inserted := [(7, 7)] }).state.insert
      2 1 0 { inserted := [(9, 9)] }).state.insert
      3 2 2 { inserted := [(10, 10)] }).state.canonicalize 1 {}).2.1).applyPending

/-- Concrete run for revert_pending: one pending insertion reverted. -/
def c7run : NCOverlay :=
  ((NCOverlay.empty.insert 1 1 0 { inserted := [(5, 5)] }).state).revertPending

/-- Concrete window with key 2 scheduled for deletion at block 0. -/
def c2w : RefWindow :=
  { deathRows := [{ hash := 10, journalKey := MetaKey.pruningJournal 0,
                    offstateJournalKey := MetaKey.offstatePruningJournal 0,
                    deleted := [2] }],
    deathIndex := [(2, 0)] }

/-- Concrete commit reinserting key 2. -/
def c2commit : CommitSet := { data := { inserted := [(2, 22)] } }

/-- Concrete window whose next-to-prune hash is 5. -/
def c6w : RefWindow :=
  { deathRows := [{ hash := 5, journalKey := MetaKey.pruningJournal 0,
                    offstateJournalKey := MetaKey.offstatePruningJournal 0,
                    deleted := [17] }],
    deathIndex := [(17, 0)] }

/-- Concrete overlay with one canonicalized block (front number 1). -/
def c8s : NCOverlay := (NCOverlay.empty.insert 1 1 0 {}).state

/-- Concrete overlay ready to canonicalize block 1. -/
def c10pre : NCOverlay := (NCOverlay.empty.insert 1 1 0 {}).state.insert 2 2 1 {} |>.state

/-! ### Association-list and window lemmas -/

theorem alookup_aerase_self {α β : Type} [DecidableEq α] (l : List (α × β)) (k : α) :
    alookup (aerase l k) k = none := by
  induction l with
  | nil => rfl
  | cons hd t ih =>
    by_cases hk : hd.1 = k
    · simp [aerase, hk, ih]
    · simp [aerase, hk, alookup, ih]

theorem alookup_aerase_ne {α β : Type} [DecidableEq α] (l : List (α × β)) (k k2 : α)
    (h : k2 ≠ k) : alookup (aerase l k) k2 = alookup l k2 := by
  have h1 : ¬ k = k2 := fun hc => h hc.symm
  induction l with
  | nil => rfl
  | cons hd t ih =>
    by_cases hk : hd.1 = k
    · have hne : ¬ hd.1 = k2 := by rw [hk]; exact h1
      simp [aerase, hk, alookup, hne, h, h1, ih]
    · by_cases h2 : hd.1 = k2
      · simp [aerase, hk, alookup, h2, h, h1]
      · simp [aerase, hk, alookup, h2, h, h1, ih]

theorem alookup_aerase_of_none {α β : Type} [DecidableEq α] (l : List (α × β)) (k k2 : α)
    (h : alookup l k2 = none) : alookup (aerase l k) k2 = none := by
  by_cases hk : k2 = k
  · subst hk; exact alookup_aerase_self l k2
  · rw [alookup_aerase_ne l k k2 hk]; exact h

theorem alookup_ainsert_self {α β : Type} [DecidableEq α] (l : List (α × β)) (k : α) (v : β) :
    alookup (ainsert l k v) k = some v := by
  induction l with
  | nil => simp [ainsert, alookup]
  | cons hd t ih =>
    by_cases hk : hd.1 = k
    · simp [ainsert, hk, alookup]
    · simp [ainsert, hk, alookup, ih]

theorem alookup_ainsert_ne {α β : Type} [DecidableEq α] (l : List (α × β)) (k k2 : α) (v : β)
    (h : k2 ≠ k) : alookup (ainsert l k v) k2 = alookup l k2 := by
  have h1 : ¬ k = k2 := fun hc => h hc.symm
  induction l with
  | nil => simp [ainsert, alookup, h1]
  | cons hd t ih =>
    by_cases hk : hd.1 = k
    · have h2 : ¬ hd.1 = k2 := by rw [hk]; exact h1
      simp [ainsert, hk, alookup, h, h1, h2]
    · by_cases h2 : hd.1 = k2
      · simp [ainsert, hk, alookup, h2, h, h1]
      · simp [ainsert, hk, alookup, h2, h, h1, ih]

theorem modifyIdx_get? {γ : Type} (l : List γ) (i j : Nat) (f : γ → γ) :
    (modifyIdx l i f).get? j = if i = j then (l.get? j).map f else l.get? j := by
  cases hgi : l.get? i with
  | none =>
    simp only [modifyIdx, hgi]
    by_cases hij : i = j
    · subst hij; rw [hgi]; simp
    · rw [if_neg hij]
  | some a =>
    simp only [modifyIdx, hgi]
    by_cases hij : i = j
    · subst hij
      rw [List.get?_set_eq (f a) i l, hgi, if_pos rfl]
      rfl
    · rw [List.get?_set_ne (f a) l hij, if_neg hij]

/-- A key is absent from the death row at a given index. -/
def RowsClean (K : Key) (i : Nat) (rows : List DeathRow) : Prop :=
  ∀ row, rows.get? i = some row → K ∉ row.deleted

theorem importScan_pendingNumber (w : RefWindow) (k : Key) :
    (importScan w k).pendingNumber = w.pendingNumber := by
  unfold importScan
  cases alookup w.deathIndex k <;> rfl

theorem foldl_importScan_pendingNumber (l : List Key) (w : RefWindow) :
    (l.foldl importScan w).pendingNumber = w.pendingNumber := by
  induction l generalizing w with
  | nil => rfl
  | cons hd t ih => rw [List.foldl_cons, ih, importScan_pendingNumber]

theorem importScan_clean (K : Key) (i : Nat) (w : RefWindow) (k : Key)
    (h1 : alookup w.deathIndex K = none) (h2 : RowsClean K i w.deathRows) :
    alookup (importScan w k).deathIndex K = none ∧
    RowsClean K i (importScan w k).deathRows := by
  unfold importScan
  cases hk : alookup w.deathIndex k with
  | none => exact ⟨h1, h2⟩
  | some b =>
    refine ⟨alookup_aerase_of_none _ _ _ h1, ?_⟩
    intro row hrow
    rw [modifyIdx_get?] at hrow
    by_cases hbi : b - w.pendingNumber = i
    · rw [if_pos hbi] at hrow
      cases horig : w.deathRows.get? i with
      | none => rw [horig] at hrow; cases hrow
      | some orig =>
        rw [horig] at hrow
        cases hrow
        intro hmem
        have hmem2 := List.mem_filter.mp hmem
        exact h2 orig horig hmem2.1
    · rw [if_neg hbi] at hrow
      exact h2 row hrow

theorem foldl_importScan_clean (K : Key) (i : Nat) :
    ∀ (l : List Key) (w : RefWindow),
      alookup w.deathIndex K = none → RowsClean K i w.deathRows →
      alookup (l.foldl importScan w).deathIndex K = none ∧
      RowsClean K i (l.foldl importScan w).deathRows := by
  intro l
  induction l with
  | nil => intro w h1 h2; exact ⟨h1, h2⟩
  | cons hd t ih =>
    intro w h1 h2
    obtain ⟨h3, h4⟩ := importScan_clean K i w hd h1 h2
    exact ih (importScan w hd) h3 h4

theorem importScan_keeps (K : Key) (b1 : Nat) (w : RefWindow) (k : Key)
    (hne : k ≠ K) (h : alookup w.deathIndex K = some b1) :
    alookup (importScan w k).deathIndex K = some b1 := by
  unfold importScan
  cases hk : alookup w.deathIndex k with
  | none => exact h
  | some b => rw [alookup_aerase_ne _ _ _ (fun hc => hne hc.symm)]; exact h

theorem foldl_importScan_processed (K : Key) (b1 : Nat) :
    ∀ (l : List Key) (w : RefWindow),
      alookup w.deathIndex K = some b1 → K ∈ l →
      alookup (l.foldl importScan w).deathIndex K = none ∧
      RowsClean K (b1 - w.pendingNumber) (l.foldl importScan w).deathRows := by
  intro l
  induction l with
  | nil => intro w _ hmem; cases hmem
  | cons hd t ih =>
    intro w hidx hmem
    by_cases hk : hd = K
    · rw [List.foldl_cons, hk]
      have hstep : alookup (importScan w K).deathIndex K = none ∧
          RowsClean K (b1 - w.pendingNumber) (importScan w K).deathRows := by
        unfold importScan
        simp only [hidx]
        constructor
        · exact alookup_aerase_self _ _
        · intro row hrow
          rw [modifyIdx_get?, if_pos rfl] at hrow
          cases horig : w.deathRows.get? (b1 - w.pendingNumber) with
          | none => rw [horig] at hrow; cases hrow
          | some orig =>
            rw [horig] at hrow
            cases hrow
            intro hmem
            have hne := (List.mem_filter.mp hmem).2
            simp at hne
      exact foldl_importScan_clean K (b1 - w.pendingNumber) t (importScan w K)
        hstep.1 hstep.2
    · rw [List.foldl_cons]
      have hkeep := importScan_keeps K b1 w hd hk hidx
      have hmem2 : K ∈ t := by
        cases hmem with
        | head => exact absurd rfl hk
        | tail _ hm => exact hm
      have := ih (importScan w hd) hkeep hmem2
      rwa [importScan_pendingNumber] at this

theorem alookup_foldl_ainsert_none (del : List Key) (idx : List (Key × Nat)) (ib : Nat)
    (K : Key) (hK : K ∉ del) (h : alookup idx K = none) :
    alookup (del.foldl (fun i k => ainsert i k ib) idx) K = none := by
  induction del generalizing idx with
  | nil => exact h
  | cons hd t ih =>
    rw [List.foldl_cons]
    have hne : K ≠ hd := fun hc => hK (hc ▸ List.mem_cons_self hd t)
    have hmem : K ∉ t := fun hc => hK (List.mem_cons_of_mem hd hc)
    refine ih (ainsert idx hd ib) hmem ?_
    rw [alookup_ainsert_ne idx hd K ib hne]
    exact h

theorem RowsClean_append (K : Key) (i : Nat) (rows : List DeathRow) (r : DeathRow)
    (h : RowsClean K i rows) (hr : K ∉ r.deleted) : RowsClean K i (rows ++ [r]) := by
  intro row hrow
  rcases Nat.lt_or_ge i rows.length with hl | hg
  · rw [List.get?_append hl] at hrow
    exact h row hrow
  · rw [List.get?_append_right hg] at hrow
    cases hi : i - rows.length with
    | zero =>
      rw [hi] at hrow
      simp only [List.get?] at hrow
      cases hrow
      exact hr
    | succ m =>
      rw [hi] at hrow
      simp [List.get?] at hrow

theorem pruneOne_fst_of_lt (w : RefWindow) (c : CommitSet)
    (h : w.pendingPrunings < w.deathRows.length) :
    (w.pruneOne c).1 = { w with pendingPrunings := w.pendingPrunings + 1 } := by
  unfold RefWindow.pruneOne
  rw [List.get?_eq_get h]

theorem pruneContinue_windowSize (cons : Constraints) (pinnedM : List (BlockHash × Nat))
    (w : RefWindow) (h : pruneContinue cons pinnedM w = true) :
    cons.maxBlocks.getD 0 < w.windowSize := by
  simp only [pruneContinue, Bool.and_eq_true, Bool.not_eq_true',
    decide_eq_false_iff_not] at h
  omega

theorem pruneLoopFuel_spec (cons : Constraints) (pinnedM : List (BlockHash × Nat)) :
    ∀ (fuel : Nat) (w : RefWindow) (c : CommitSet), w.windowSize < fuel →
      ∃ k, pruneLoopFuel cons pinnedM fuel w c = pruneStep^[k] (w, c) ∧
        (∀ j, j < k → pruneContinue cons pinnedM (pruneStep^[j] (w, c)).1 = true) ∧
        pruneContinue cons pinnedM (pruneStep^[k] (w, c)).1 = false := by
  intro fuel
  induction fuel with
  | zero => intro w c h; omega
  | succ f ih =>
    intro w c h
    by_cases hcont : pruneContinue cons pinnedM w = true
    · have hwin := pruneContinue_windowSize cons pinnedM w hcont
      have hlt : w.pendingPrunings < w.deathRows.length := by
        unfold RefWindow.windowSize at hwin; omega
      have hfst := pruneOne_fst_of_lt w c hlt
      have hsize : (w.pruneOne c).1.windowSize < f := by
        rw [hfst]
        unfold RefWindow.windowSize at h hwin ⊢
        simp only []
        omega
      obtain ⟨k, hk1, hk2, hk3⟩ := ih (w.pruneOne c).1 (w.pruneOne c).2 hsize
      refine ⟨k + 1, ?_, ?_, ?_⟩
      · simp only [pruneLoopFuel, hcont, if_true]
        rw [Function.iterate_succ_apply]
        exact hk1
      · intro j hj
        cases j with
        | zero => simpa using hcont
        | succ j2 =>
          rw [Function.iterate_succ_apply]
          exact hk2 j2 (by omega)
      · rw [Function.iterate_succ_apply]
        exact hk3
    · refine ⟨0, ?_, ?_, ?_⟩
      · simp [pruneLoopFuel, hcont]
      · intro j hj; omega
      · simpa using hcont

theorem insertFinish_isOk (s : NCOverlay) (commit : CommitSet) (hash : BlockHash)
    (number : Nat) (parentHash : BlockHash) (changeset : ChangeSet)
    (levels : List (List BlockOverlay)) (li : Nat) :
    (insertFinish s commit hash number parentHash changeset levels li).isOk = true := rfl

theorem insertFinish_ne_err (s : NCOverlay) (commit : CommitSet) (hash : BlockHash)
    (number : Nat) (parentHash : BlockHash) (changeset : ChangeSet)
    (levels : List (List BlockOverlay)) (li : Nat) (e : StateError) (st : NCOverlay) :
    insertFinish s commit hash number parentHash changeset levels li ≠
      InsertResult.err e st :=
  fun hcon => InsertResult.noConfusion hcon

theorem insertFinish_ne_panicked (s : NCOverlay) (commit : CommitSet) (hash : BlockHash)
    (number : Nat) (parentHash : BlockHash) (changeset : ChangeSet)
    (levels : List (List BlockOverlay)) (li : Nat) (st : NCOverlay) :
    insertFinish s commit hash number parentHash changeset levels li ≠
      InsertResult.panicked st :=
  fun hcon => InsertResult.noConfusion hcon

theorem insertCore_ne_err (s : NCOverlay) (commit : CommitSet) (front : Nat)
    (hash : BlockHash) (number : Nat) (parentHash : BlockHash) (changeset : ChangeSet)
    (e : StateError) (st : NCOverlay) :
    insertCore s commit front hash number parentHash changeset ≠ InsertResult.err e st := by
  unfold insertCore
  split_ifs
  · exact insertFinish_ne_err _ _ _ _ _ _ _ _ _ _
  · exact insertFinish_ne_err _ _ _ _ _ _ _ _ _ _
  · exact fun hcon => InsertResult.noConfusion hcon

theorem insertCore_isOk_iff (s : NCOverlay) (commit : CommitSet) (front : Nat)
    (hash : BlockHash) (number : Nat) (parentHash : BlockHash) (changeset : ChangeSet) :
    (insertCore s commit front hash number parentHash changeset).isOk = true ↔
      (s.levels = [] ∨ number = front + s.levels.length ∨
        number - front < s.levels.length) := by
  unfold insertCore
  split_ifs with h1 h2
  · simp only [insertFinish_isOk, true_iff]
    tauto
  · simp only [insertFinish_isOk, true_iff]
    tauto
  · simp only [InsertResult.isOk]
    constructor
    · intro hcon; cases hcon
    · intro hdisj; tauto

theorem insertCore_panicked_iff (s : NCOverlay) (commit : CommitSet) (front : Nat)
    (hash : BlockHash) (number : Nat) (parentHash : BlockHash) (changeset : ChangeSet)
    (st : NCOverlay) :
    insertCore s commit front hash number parentHash changeset =
        InsertResult.panicked st ↔
      (¬(s.levels = [] ∨ number = front + s.levels.length) ∧
        ¬(number - front < s.levels.length) ∧ st = s) := by
  unfold insertCore
  split_ifs with h1 h2
  · simp only [iff_def]
    constructor
    · intro hcon; exact absurd hcon (insertFinish_ne_panicked _ _ _ _ _ _ _ _ _)
    · intro hcon; tauto
  · simp only [iff_def]
    constructor
    · intro hcon; exact absurd hcon (insertFinish_ne_panicked _ _ _ _ _ _ _ _ _)
    · intro hcon; tauto
  · constructor
    · intro hcon
      injection hcon with hst
      exact ⟨h1, h2, hst.symm⟩
    · intro hcon
      rw [hcon.2.2]

theorem insert_err_state (s : NCOverlay) (h n p : Nat) (cs : ChangeSet)
    (e : StateError) (st : NCOverlay)
    (heq : s.insert h n p cs = InsertResult.err e st) : st = s := by
  unfold NCOverlay.insert at heq
  by_cases hboot : s.levels = [] ∧ s.lastCanonicalized = none ∧ 0 < n
  · rw [if_pos hboot] at heq
    exact absurd heq (insertCore_ne_err _ _ _ _ _ _ _ _ _)
  · rw [if_neg hboot] at heq
    cases hlc : s.lastCanonicalized with
    | none =>
      rw [hlc] at heq
      exact absurd heq (insertCore_ne_err _ _ _ _ _ _ _ _ _)
    | some pr =>
      rcases pr with ⟨lh, ln⟩
      rw [hlc] at heq
      simp only at heq
      split_ifs at heq with h1 h2 h3 h4
      · injection heq with he hst; exact hst.symm
      · exact absurd heq (insertCore_ne_err _ _ _ _ _ _ _ _ _)
      · injection heq with he hst; exact hst.symm
      · exact absurd heq (insertCore_ne_err _ _ _ _ _ _ _ _ _)
      · injection heq with he hst; exact hst.symm

theorem canonicalize_err_state (s : NCOverlay) (hash : BlockHash) (c : CommitSet)
    (e : StateError) (heq : (s.canonicalize hash c).1 = Except.error e) :
    (s.canonicalize hash c).2.1 = s ∧ (s.canonicalize hash c).2.2 = c := by
  cases hget : s.levels[s.pendingCanonicalizations.length]? with
  | none => constructor <;> simp [NCOverlay.canonicalize, hget]
  | some level =>
    cases hidx : level.findIdx? (fun o => decide (o.hash = hash)) with
    | none => constructor <;> simp [NCOverlay.canonicalize, hget, hidx]
    | some index =>
      exfalso
      simp [NCOverlay.canonicalize, hget, hidx] at heq

theorem canonicalize_ok_state (s : NCOverlay) (hash : BlockHash) (c : CommitSet)
    (n : Nat) (st : NCOverlay) (c2 : CommitSet)
    (heq : s.canonicalize hash c = (Except.ok n, st, c2)) :
    st = { s with pendingCanonicalizations := s.pendingCanonicalizations ++ [hash] } := by
  cases hget : s.levels[s.pendingCanonicalizations.length]? with
  | none => simp [NCOverlay.canonicalize, hget] at heq
  | some level =>
    cases hidx : level.findIdx? (fun o => decide (o.hash = hash)) with
    | none => simp [NCOverlay.canonicalize, hget, hidx] at heq
    | some index =>
      simp only [NCOverlay.canonicalize, List.get?_eq_getElem?, hget, hidx,
        Prod.mk.injEq] at heq
      exact heq.2.1.symm

theorem importBlock_clean (w : RefWindow) (hash : BlockHash) (jk ojk : MetaKey)
    (ins del : List Key) (K : Key) (b1 : Nat)
    (hidx : alookup w.deathIndex K = some b1) (hins : K ∈ ins) (hdel : K ∉ del) :
    alookup (w.importBlock hash jk ojk ins del).deathIndex K = none ∧
    RowsClean K (b1 - w.pendingNumber) (w.importBlock hash jk ojk ins del).deathRows := by
  obtain ⟨hnone, hclean⟩ := foldl_importScan_processed K b1 ins w hidx hins
  unfold RefWindow.importBlock
  constructor
  · exact alookup_foldl_ainsert_none del _ _ K hdel hnone
  · refine RowsClean_append K _ _ _ hclean ?_
    intro hmem
    exact hdel (List.mem_dedup.mp hmem)

/-! ### Claim theorems -/

/-- C1.  Ref-count conservation fails on the code: after inserting
sibling blocks 1 (which inserts key 5) and 2 at height 1,
canonicalizing block 2 and applying, no live BlockOverlay references
key 5 and nothing is pinned, yet key 5 is still stored with refcount 1
and still served by get — discard_values returns without decrementing
whenever no pin snapshot is supplied, contradicting the insert_same_key
and insert_canonicalize_two tests of the module. -/
theorem refcount_conservation_violated_at_discard :
    overlayRefCount c1run 5 = 0 ∧ c1run.pinned = [] ∧
    alookup c1run.values 5 = some (1, 55) ∧ c1run.get 5 = some 55 := by decide

/-- C3.  Fork discard fails on the code for the value part: after
canonicalizing block 1 against sibling 2 (with child 3) and applying,
have_block is false for 2 and 3 as claimed, but the values inserted only
by the discarded subtree (keys 9 and 10) are still returned by get,
because discard_values returns early for unpinned blocks — the
complex_tree test of the module asserts the opposite. -/
theorem fork_discard_value_leak :
    c3run.haveBlock 2 = false ∧ c3run.haveBlock 3 = false ∧
    c3run.get 9 = some 9 ∧ c3run.get 10 = some 10 := by decide

/-- C7.  revert_pending is not a full undo on the code: reverting a
single pending insertion leaves the inserted value in the shared map (so
get still returns it), although levels and parents are restored — the
revert_pending_insertion test of the module asserts the value is gone. -/
theorem revert_pending_leaves_values :
    c7run ≠ NCOverlay.empty ∧ c7run.get 5 = some 5 ∧
    c7run.levels = NCOverlay.empty.levels ∧ c7run.parents = NCOverlay.empty.parents := by decide

/-- C4.  The concrete end-to-end scenario under Constrained maxBlocks 1:
the final backing store holds exactly the keys 21, 3, 922, 93, 94, and
both block 1 at height 1 and block 22 at height 2 report pruned. -/
theorem constrained_window_one_scenario :
    ((scenarioRun.1.data.map Prod.fst).all
      (fun k => ([21, 3, 922, 93, 94] : List Nat).contains k) = true) ∧
    (([21, 3, 922, 93, 94] : List Nat).all
      (fun k => (scenarioRun.1.data.map Prod.fst).contains k) = true) ∧
    scenarioRun.2.isPruned 1 1 = true ∧
    scenarioRun.2.isPruned 22 2 = true := by decide

/-- C5 counterexample.  On a freshly opened empty overlay, inserting at
number 5 succeeds, although 5 is neither 0 nor inside the claimed window
[front_block_number, front_block_number + levels.len()] = [0, 0]; the
claim predicts an InvalidBlockNumber failure. -/
theorem insert_topology_claim_counterexample :
    (NCOverlay.empty.insert 1 5 0 {}).isOk = true ∧
    ¬(5 = 0 ∨ (NCOverlay.empty.frontBlockNumber ≤ 5 ∧
               5 ≤ NCOverlay.empty.frontBlockNumber + NCOverlay.empty.levels.length)) := by
  decide

/-- C9 counterexample.  Under ArchiveAll, pinning a hash that is tracked
neither by the overlay nor by any window succeeds, although the claim
requires PinError InvalidBlock for every untracked hash in every mode. -/
theorem pin_archive_all_counterexample :
    ((StateDbSync.openEmpty PruningMode.archiveAll).pinBlock 99).1 = Except.ok () ∧
    trackedAnywhere (StateDbSync.openEmpty PruningMode.archiveAll) 99 = false := by decide

/-- C2.  Reinsertion survives: if key K is scheduled for deletion at
block b1 of the window (via the death index), and a note_canonical whose
commit inserts K (and does not delete it again) runs before the row of
b1 is pruned, then K is removed from that death row and from the death
index, and any later prune_one that reaches that row (whose contents no
subsequent operation re-extends) puts no K into the commit deletions —
so K stays readable from the reinserting height on. -/
theorem reinsertion_survives_in_window (w : RefWindow) (hash : BlockHash) (c : CommitSet)
    (K : Key) (b1 : Nat)
    (hidx : alookup w.deathIndex K = some b1)
    (hins : K ∈ c.data.inserted.map Prod.fst)
    (hdel : K ∉ c.data.deleted) :
    (∀ row, ((w.noteCanonical hash c).1).deathRows.get? (b1 - w.pendingNumber) = some row →
        K ∉ row.deleted) ∧
    alookup ((w.noteCanonical hash c).1).deathIndex K = none ∧
    (∀ (w2 : RefWindow) (c2 : CommitSet),
        w2.deathRows.get? w2.pendingPrunings =
          ((w.noteCanonical hash c).1).deathRows.get? (b1 - w.pendingNumber) →
        K ∉ c2.data.deleted →
        K ∉ ((w2.pruneOne c2).2).data.deleted) := by
  obtain ⟨hnone, hclean⟩ := importBlock_clean w hash
    (MetaKey.pruningJournal (w.pendingNumber + w.deathRows.length))
    (MetaKey.offstatePruningJournal (w.pendingNumber + w.deathRows.length))
    (c.data.inserted.map Prod.fst) c.data.deleted K b1 hidx hins hdel
  have hrows : ((w.noteCanonical hash c).1).deathRows =
      (w.importBlock hash
        (MetaKey.pruningJournal (w.pendingNumber + w.deathRows.length))
        (MetaKey.offstatePruningJournal (w.pendingNumber + w.deathRows.length))
        (c.data.inserted.map Prod.fst) c.data.deleted).deathRows := rfl
  have hindexeq : ((w.noteCanonical hash c).1).deathIndex =
      (w.importBlock hash
        (MetaKey.pruningJournal (w.pendingNumber + w.deathRows.length))
        (MetaKey.offstatePruningJournal (w.pendingNumber + w.deathRows.length))
        (c.data.inserted.map Prod.fst) c.data.deleted).deathIndex := rfl
  refine ⟨?_, ?_, ?_⟩
  · intro row hrow
    rw [hrows] at hrow
    exact hclean row hrow
  · rw [hindexeq]; exact hnone
  · intro w2 c2 heq hc2
    unfold RefWindow.pruneOne
    cases hng : w2.deathRows.get? w2.pendingPrunings with
    | none => exact hc2
    | some row =>
      have hKrow : K ∉ row.deleted := by
        rw [heq, hrows] at hng
        exact hclean row hng
      intro hmem
      simp only [List.mem_append] at hmem
      cases hmem with
      | inl hm => exact hc2 hm
      | inr hm => exact hKrow hm

/-- C2 witness: a window with key 2 scheduled at block 0 and a commit
reinserting key 2. -/
theorem reinsertion_survives_in_window_witness :
    alookup ((c2w.noteCanonical 11 c2commit).1).deathIndex 2 = none ∧
    (2 : Key) ∉ ((((c2w.noteCanonical 11 c2commit).1).pruneOne {}).2).data.deleted := by
  have h := reinsertion_survives_in_window c2w 11 c2commit 2 0
    (by decide) (by decide) (by decide)
  exact ⟨h.2.1, h.2.2 ((c2w.noteCanonical 11 c2commit).1) {} (by decide) (by decide)⟩

/-- C6.  The prune loop run by canonicalize_block under Constrained mode
iterates prune_one exactly while the continue condition holds — window
larger than maxBlocks (default 0), memory constraint not exceeded, next
hash unpinned — and stops at the first failing condition; in particular
a pinned next-to-prune hash freezes the loop entirely, regardless of
maxBlocks, and statePrune is exactly this loop on the coordinator
state. -/
theorem prune_loop_runs_exactly_while (cons : Constraints)
    (pinnedM : List (BlockHash × Nat)) (w : RefWindow) (c : CommitSet) :
    (∃ k, pruneLoop cons pinnedM w c = pruneStep^[k] (w, c) ∧
       (∀ j, j < k → pruneContinue cons pinnedM (pruneStep^[j] (w, c)).1 = true) ∧
       pruneContinue cons pinnedM (pruneStep^[k] (w, c)).1 = false) ∧
    (∀ hh, w.nextHash = some hh → (alookup pinnedM hh).isSome = true →
       pruneLoop cons pinnedM w c = (w, c)) ∧
    (∀ (s : StateDbSync), s.mode = PruningMode.constrained cons → s.pruning = some w →
       s.pinned = pinnedM →
       statePrune s c = ({ s with pruning := some (pruneLoop cons pinnedM w c).1 },
                         (pruneLoop cons pinnedM w c).2)) := by
  have hmain := pruneLoopFuel_spec cons pinnedM (w.windowSize + 1) w c (by omega)
  refine ⟨hmain, ?_, ?_⟩
  · intro hh hnh hpin
    have hstop : pruneContinue cons pinnedM w = false := by
      simp [pruneContinue, hnh, hpin]
    obtain ⟨k, hk1, hk2, _⟩ := hmain
    cases k with
    | zero => simpa [pruneLoop] using hk1
    | succ k2 =>
      have := hk2 0 (by omega)
      simp only [Function.iterate_zero, id_eq] at this
      rw [hstop] at this
      cases this
  · intro s hmode hprun hpinned
    rcases s with ⟨m, nc, pr, pin⟩
    simp only at hmode hprun hpinned
    subst hmode hprun hpinned
    rfl

/-- C6 witness: a window whose next-to-prune hash 5 is pinned is left
untouched by the loop although maxBlocks is unset (default 0). -/
theorem prune_loop_runs_exactly_while_witness :
    pruneLoop {} [(5, 1)] c6w {} = (c6w, {}) :=
  (prune_loop_runs_exactly_while {} [(5, 1)] c6w {}).2.1 5 (by decide) (by decide)

/-- C8.  Atomicity on failure: an insert returning InvalidBlockNumber or
InvalidParent leaves the overlay exactly as it was, and a canonicalize
returning InvalidBlock leaves both the overlay and the caller-supplied
commit set exactly as they were — validation precedes every mutation. -/
theorem failed_calls_leave_state_unchanged (s : NCOverlay) (h n p : Nat) (cs : ChangeSet)
    (hash : BlockHash) (c : CommitSet) :
    (∀ e st, s.insert h n p cs = InsertResult.err e st → st = s) ∧
    (∀ e, (s.canonicalize hash c).1 = Except.error e →
      (s.canonicalize hash c).2.1 = s ∧ (s.canonicalize hash c).2.2 = c) :=
  ⟨fun e st heq => insert_err_state s h n p cs e st heq,
   fun e heq => canonicalize_err_state s hash c e heq⟩

/-- C8 witness: on an overlay with front number 1 and one level, insert
at number 9 fails with InvalidBlockNumber and the threaded state is the
original one; canonicalize of the untracked hash 7 fails leaving state
and commit untouched. -/
theorem failed_calls_leave_state_unchanged_witness :
    (c8s.insert 2 9 1 {} = InsertResult.err StateError.invalidBlockNumber c8s) ∧
    c8s = c8s ∧ (c8s.canonicalize 7 {}).2.1 = c8s := by
  refine ⟨by decide, ?_, ?_⟩
  · exact (failed_calls_leave_state_unchanged c8s 2 9 1 {} 0 {}).1
      StateError.invalidBlockNumber c8s (by decide)
  · exact ((failed_calls_leave_state_unchanged c8s 2 9 1 {} 7 {}).2
      StateError.invalidBlock (by decide)).1

/-- C10.  have_block returns true exactly when the hash is in the parent
map or in the pending insertions and has no pending canonicalization;
immediately after a successful canonicalize — before any apply — the
canonicalized hash already reports false, while levels, parents and the
value map are structurally unchanged. -/
theorem have_block_and_pending_canonicalization (s : NCOverlay) (hash : BlockHash)
    (c : CommitSet) :
    (∀ h2 : BlockHash, s.haveBlock h2 = true ↔
       (((alookup s.parents h2).isSome = true ∨ h2 ∈ s.pendingInsertions) ∧
        h2 ∉ s.pendingCanonicalizations)) ∧
    (∀ n st c2, s.canonicalize hash c = (Except.ok n, st, c2) →
       st.haveBlock hash = false ∧ st.levels = s.levels ∧ st.parents = s.parents ∧
       st.values = s.values) := by
  constructor
  · intro h2
    simp [NCOverlay.haveBlock, List.elem_iff]
  · intro n st c2 heq
    have hst := canonicalize_ok_state s hash c n st c2 heq
    subst hst
    refine ⟨?_, rfl, rfl, rfl⟩
    simp [NCOverlay.haveBlock, List.elem_iff]

/-- C10 witness: canonicalizing block 1 of a concrete overlay makes
have_block 1 false at once, with the levels untouched. -/
theorem have_block_and_pending_canonicalization_witness :
    ((c10pre.canonicalize 1 {}).2.1).haveBlock 1 = false ∧
    ((c10pre.canonicalize 1 {}).2.1).levels = c10pre.levels := by
  have h := (have_block_and_pending_canonicalization c10pre 1 {}).2 1
    ((c10pre.canonicalize 1 {}).2.1) ((c10pre.canonicalize 1 {}).2.2) (by decide)
  exact ⟨h.1, h.2.1⟩

/-- C9 (amended).  Under ArchiveCanonical and Constrained modes, pin
succeeds exactly for hashes tracked by the overlay or by the window
pending rows and otherwise fails with PinError InvalidBlock leaving the
state unchanged; under ArchiveAll pin succeeds unconditionally, without
validation or hold-count bookkeeping. -/
theorem pin_validation_characterization (s : StateDbSync) (hash : BlockHash) :
    (s.mode = PruningMode.archiveAll → s.pinBlock hash = (Except.ok (), s)) ∧
    (s.mode ≠ PruningMode.archiveAll →
      (((s.pinBlock hash).1 = Except.ok ()) ↔ trackedAnywhere s hash = true) ∧
      (trackedAnywhere s hash = false →
        s.pinBlock hash = (Except.error PinError.invalidBlock, s))) := by
  cases hm : s.mode with
  | archiveAll =>
    constructor
    · intro _
      simp [StateDbSync.pinBlock, hm]
    · intro hne; exact absurd rfl hne
  | archiveCanonical =>
    constructor
    · intro hc; cases hc
    · intro _
      by_cases htr : trackedAnywhere s hash = true
      · constructor
        · simp [StateDbSync.pinBlock, hm, htr]
        · intro hfalse; rw [htr] at hfalse; cases hfalse
      · have hf : trackedAnywhere s hash = false := by simpa using htr
        constructor
        · simp [StateDbSync.pinBlock, hm, hf]
        · intro _; simp [StateDbSync.pinBlock, hm, hf]
  | constrained cc =>
    constructor
    · intro hc; cases hc
    · intro _
      by_cases htr : trackedAnywhere s hash = true
      · constructor
        · simp [StateDbSync.pinBlock, hm, htr]
        · intro hfalse; rw [htr] at hfalse; cases hfalse
      · have hf : trackedAnywhere s hash = false := by simpa using htr
        constructor
        · simp [StateDbSync.pinBlock, hm, hf]
        · intro _; simp [StateDbSync.pinBlock, hm, hf]

/-- C9 witness: under ArchiveCanonical, pinning the untracked hash 7
fails with InvalidBlock and leaves the state unchanged. -/
theorem pin_validation_characterization_witness :
    (StateDbSync.openEmpty PruningMode.archiveCanonical).pinBlock 7 =
      (Except.error PinError.invalidBlock,
       StateDbSync.openEmpty PruningMode.archiveCanonical) :=
  ((pin_validation_characterization
      (StateDbSync.openEmpty PruningMode.archiveCanonical) 7).2
    (by decide)).2 (by decide)

/-- C5 (amended).  Exact validation behaviour of insert: on a fresh
overlay (no levels, nothing canonicalized) any positive number succeeds
(bootstrap, the parent assumed canonical at number − 1); with a
last-canonicalized block (lh, ln) present, success exactly when the
number lies in [ln + 1, ln + 1 + levels.len] with the parent equal to
the last canonical hash at the front and tracked when deeper —
InvalidBlockNumber outside the window, InvalidParent on the parent
violations; with levels but nothing canonicalized (reachable only via a
number-0 insert) no validation happens: numbers up to levels.len
succeed and larger ones hit the level-indexing panic. -/
theorem insert_validation_characterization (s : NCOverlay) (h n p : Nat) (cs : ChangeSet) :
    ((s.insert h n p cs).isOk = true ↔
      ((s.levels = [] ∧ s.lastCanonicalized = none ∧ 0 < n) ∨
       (∃ lh ln, s.lastCanonicalized = some (lh, ln) ∧
         ln + 1 ≤ n ∧ n ≤ ln + 1 + s.levels.length ∧
         (n = ln + 1 → lh = p) ∧
         (n ≠ ln + 1 → (alookup s.parents p).isSome = true)) ∨
       (s.lastCanonicalized = none ∧ (s.levels ≠ [] ∨ n = 0) ∧
         n ≤ s.levels.length))) ∧
    (s.insert h n p cs = InsertResult.err StateError.invalidBlockNumber s ↔
      (∃ lh ln, s.lastCanonicalized = some (lh, ln) ∧
        (n < ln + 1 ∨ ln + 1 + s.levels.length < n))) ∧
    (s.insert h n p cs = InsertResult.err StateError.invalidParent s ↔
      (∃ lh ln, s.lastCanonicalized = some (lh, ln) ∧
        ln + 1 ≤ n ∧ n ≤ ln + 1 + s.levels.length ∧
        ((n = ln + 1 ∧ ¬(lh = p ∧ ln = n - 1)) ∨
         (n ≠ ln + 1 ∧ alookup s.parents p = none)))) ∧
    (s.insert h n p cs = InsertResult.panicked s ↔
      (s.lastCanonicalized = none ∧ s.levels ≠ [] ∧ s.levels.length < n)) := by
  by_cases hboot : s.levels = [] ∧ s.lastCanonicalized = none ∧ 0 < n
  · obtain ⟨hl, hlc, hn⟩ := hboot
    have hres : s.insert h n p cs =
        insertCore { s with lastCanonicalized := some (p, n - 1) }
          { meta := { inserted :=
              [(MetaKey.lastCanonical, MetaVal.lastCanonicalVal p (n - 1))] } }
          s.frontBlockNumber h n p cs := by
      unfold NCOverlay.insert
      rw [if_pos ⟨hl, hlc, hn⟩]
    refine ⟨?_, ?_, ?_, ?_⟩
    · rw [hres, insertCore_isOk_iff]
      constructor
      · intro _; exact Or.inl ⟨hl, hlc, hn⟩
      · intro _; exact Or.inl hl
    · rw [hres]
      constructor
      · intro hcon; exact absurd hcon (insertCore_ne_err _ _ _ _ _ _ _ _ _)
      · rintro ⟨lh, ln, hsome, _⟩; rw [hlc] at hsome; cases hsome
    · rw [hres]
      constructor
      · intro hcon; exact absurd hcon (insertCore_ne_err _ _ _ _ _ _ _ _ _)
      · rintro ⟨lh, ln, hsome, _⟩; rw [hlc] at hsome; cases hsome
    · rw [hres, insertCore_panicked_iff]
      constructor
      · rintro ⟨hnot, _, _⟩; exact absurd (Or.inl hl) hnot
      · rintro ⟨_, hne, _⟩; exact absurd hl hne
  · cases hlc : s.lastCanonicalized with
    | some pr =>
      rcases pr with ⟨lh, ln⟩
      have hfront : s.frontBlockNumber = ln + 1 := by
        simp [NCOverlay.frontBlockNumber, hlc]
      by_cases hbn : n < s.frontBlockNumber ∨
          s.frontBlockNumber + s.levels.length + 1 ≤ n
      · have hres : s.insert h n p cs =
            InsertResult.err StateError.invalidBlockNumber s := by
          unfold NCOverlay.insert
          rw [if_neg hboot]
          simp only [hlc]
          rw [if_pos hbn]
        rw [hfront] at hbn
        refine ⟨?_, ?_, ?_, ?_⟩
        · rw [hres]
          simp only [InsertResult.isOk]
          constructor
          · intro hcon; cases hcon
          · rintro (⟨_, hnone, _⟩ | ⟨lh2, ln2, hsome, hr1, hr2, _⟩ | ⟨hnone, _, _⟩)
            · cases hnone
            · rw [Option.some.injEq, Prod.mk.injEq] at hsome
              obtain ⟨rfl, rfl⟩ := hsome
              omega
            · cases hnone
        · rw [hres]
          constructor
          · intro _; exact ⟨lh, ln, rfl, by omega⟩
          · intro _; rfl
        · rw [hres]
          constructor
          · intro hcon
            injection hcon with he hst
            exact StateError.noConfusion he
          · rintro ⟨lh2, ln2, hsome, hr1, hr2, _⟩
            rw [Option.some.injEq, Prod.mk.injEq] at hsome
            obtain ⟨rfl, rfl⟩ := hsome
            omega
        · rw [hres]
          constructor
          · intro hcon; exact InsertResult.noConfusion hcon
          · rintro ⟨hnone, _, _⟩; cases hnone
      · by_cases hfeq : n = s.frontBlockNumber
        · by_cases hpar : lh = p ∧ ln = n - 1
          · have hres : s.insert h n p cs =
                insertCore s {} s.frontBlockNumber h n p cs := by
              unfold NCOverlay.insert
              rw [if_neg hboot]
              simp only [hlc]
              rw [if_neg hbn, if_pos hfeq, if_pos hpar]
            rw [hfront] at hbn hfeq
            refine ⟨?_, ?_, ?_, ?_⟩
            · rw [hres, insertCore_isOk_iff]
              constructor
              · intro _
                refine Or.inr (Or.inl ⟨lh, ln, rfl, by omega, by omega, ?_, ?_⟩)
                · intro _; exact hpar.1
                · intro hne; exact absurd hfeq hne
              · intro _
                rw [hfront]
                rcases Nat.eq_zero_or_pos s.levels.length with hz | hpos
                · right; left; omega
                · right; right; omega
            · rw [hres]
              constructor
              · intro hcon; exact absurd hcon (insertCore_ne_err _ _ _ _ _ _ _ _ _)
              · rintro ⟨lh2, ln2, hsome, hrange⟩
                rw [Option.some.injEq, Prod.mk.injEq] at hsome
                obtain ⟨rfl, rfl⟩ := hsome
                omega
            · rw [hres]
              constructor
              · intro hcon; exact absurd hcon (insertCore_ne_err _ _ _ _ _ _ _ _ _)
              · rintro ⟨lh2, ln2, hsome, _, _, hbad⟩
                rw [Option.some.injEq, Prod.mk.injEq] at hsome
                obtain ⟨rfl, rfl⟩ := hsome
                rcases hbad with ⟨_, hnp⟩ | ⟨hne, _⟩
                · exact (hnp hpar).elim
                · exact (hne hfeq).elim
            · rw [hres, insertCore_panicked_iff]
              constructor
              · rintro ⟨hnot1, hnot2, _⟩
                have h1 : ¬(n = s.frontBlockNumber + s.levels.length) :=
                  fun hc => hnot1 (Or.inr hc)
                rw [hfront] at h1 hnot2
                omega
              · rintro ⟨hnone, _, _⟩; cases hnone
          · have hres : s.insert h n p cs =
                InsertResult.err StateError.invalidParent s := by
              unfold NCOverlay.insert
              rw [if_neg hboot]
              simp only [hlc]
              rw [if_neg hbn, if_pos hfeq, if_neg hpar]
            rw [hfront] at hbn hfeq
            have hlnp : ln = n - 1 := by omega
            refine ⟨?_, ?_, ?_, ?_⟩
            · rw [hres]
              simp only [InsertResult.isOk]
              constructor
              · intro hcon; cases hcon
              · rintro (⟨_, hnone, _⟩ | ⟨lh2, ln2, hsome, _, _, himp1, _⟩ | ⟨hnone, _, _⟩)
                · cases hnone
                · rw [Option.some.injEq, Prod.mk.injEq] at hsome
                  obtain ⟨rfl, rfl⟩ := hsome
                  exact (hpar ⟨himp1 hfeq, hlnp⟩).elim
                · cases hnone
            · rw [hres]
              constructor
              · intro hcon
                injection hcon with he hst
                exact StateError.noConfusion he
              · rintro ⟨lh2, ln2, hsome, hrange⟩
                rw [Option.some.injEq, Prod.mk.injEq] at hsome
                obtain ⟨rfl, rfl⟩ := hsome
                omega
            · rw [hres]
              constructor
              · intro _
                exact ⟨lh, ln, rfl, by omega, by omega, Or.inl ⟨hfeq, hpar⟩⟩
              · intro _; rfl
            · rw [hres]
              constructor
              · intro hcon; exact InsertResult.noConfusion hcon
              · rintro ⟨hnone, _, _⟩; cases hnone
        · by_cases hps : (alookup s.parents p).isSome = true
          · have hres : s.insert h n p cs =
                insertCore s {} s.frontBlockNumber h n p cs := by
              unfold NCOverlay.insert
              rw [if_neg hboot]
              simp only [hlc]
              rw [if_neg hbn, if_neg hfeq, if_pos hps]
            rw [hfront] at hbn hfeq
            refine ⟨?_, ?_, ?_, ?_⟩
            · rw [hres, insertCore_isOk_iff]
              constructor
              · intro _
                refine Or.inr (Or.inl ⟨lh, ln, rfl, by omega, by omega, ?_, fun _ => hps⟩)
                intro heq; exact absurd heq hfeq
              · intro _
                rw [hfront]
                by_cases hnl : n = ln + 1 + s.levels.length
                · right; left; omega
                · right; right; omega
            · rw [hres]
              constructor
              · intro hcon; exact absurd hcon (insertCore_ne_err _ _ _ _ _ _ _ _ _)
              · rintro ⟨lh2, ln2, hsome, hrange⟩
                rw [Option.some.injEq, Prod.mk.injEq] at hsome
                obtain ⟨rfl, rfl⟩ := hsome
                omega
            · rw [hres]
              constructor
              · intro hcon; exact absurd hcon (insertCore_ne_err _ _ _ _ _ _ _ _ _)
              · rintro ⟨lh2, ln2, hsome, _, _, hbad⟩
                rw [Option.some.injEq, Prod.mk.injEq] at hsome
                obtain ⟨rfl, rfl⟩ := hsome
                rcases hbad with ⟨heq, _⟩ | ⟨_, hnone⟩
                · exact (hfeq heq).elim
                · rw [hnone] at hps; cases hps
            · rw [hres, insertCore_panicked_iff]
              constructor
              · rintro ⟨hnot1, hnot2, _⟩
                have h1 : ¬(n = s.frontBlockNumber + s.levels.length) :=
                  fun hc => hnot1 (Or.inr hc)
                rw [hfront] at h1 hnot2
                omega
              · rintro ⟨hnone, _, _⟩; cases hnone
          · have hres : s.insert h n p cs =
                InsertResult.err StateError.invalidParent s := by
              unfold NCOverlay.insert
              rw [if_neg hboot]
              simp only [hlc]
              rw [if_neg hbn, if_neg hfeq, if_neg hps]
            rw [hfront] at hbn hfeq
            have hnone2 : alookup s.parents p = none :=
              Option.not_isSome_iff_eq_none.mp hps
            refine ⟨?_, ?_, ?_, ?_⟩
            · rw [hres]
              simp only [InsertResult.isOk]
              constructor
              · intro hcon; cases hcon
              · rintro (⟨_, hnone, _⟩ | ⟨lh2, ln2, hsome, _, _, _, himp2⟩ | ⟨hnone, _, _⟩)
                · cases hnone
                · rw [Option.some.injEq, Prod.mk.injEq] at hsome
                  obtain ⟨rfl, rfl⟩ := hsome
                  exact (hps (himp2 hfeq)).elim
                · cases hnone
            · rw [hres]
              constructor
              · intro hcon
                injection hcon with he hst
                exact StateError.noConfusion he
              · rintro ⟨lh2, ln2, hsome, hrange⟩
                rw [Option.some.injEq, Prod.mk.injEq] at hsome
                obtain ⟨rfl, rfl⟩ := hsome
                omega
            · rw [hres]
              constructor
              · intro _
                exact ⟨lh, ln, rfl, by omega, by omega, Or.inr ⟨hfeq, hnone2⟩⟩
              · intro _; rfl
            · rw [hres]
              constructor
              · intro hcon; exact InsertResult.noConfusion hcon
              · rintro ⟨hnone, _, _⟩; cases hnone
    | none =>
      have hfront0 : s.frontBlockNumber = 0 := by
        simp [NCOverlay.frontBlockNumber, hlc]
      have hres : s.insert h n p cs =
          insertCore s {} s.frontBlockNumber h n p cs := by
        unfold NCOverlay.insert
        rw [if_neg hboot]
        simp only [hlc]
      have hnb : s.levels ≠ [] ∨ n = 0 := by
        by_contra hcon
        push_neg at hcon
        exact hboot ⟨hcon.1, hlc, Nat.pos_of_ne_zero hcon.2⟩
      refine ⟨?_, ?_, ?_, ?_⟩
      · rw [hres, insertCore_isOk_iff, hfront0]
        constructor
        · intro hdisj
          refine Or.inr (Or.inr ⟨rfl, hnb, ?_⟩)
          rcases hdisj with hd | hd | hd
          · rcases hnb with hne | hzero
            · exact absurd hd hne
            · rw [hzero]; exact Nat.zero_le _
          · omega
          · omega
        · rintro (⟨hlv, _, hpos⟩ | ⟨lh2, ln2, hsome, _⟩ | ⟨_, _, hle⟩)
          · exact absurd ⟨hlv, hlc, hpos⟩ hboot
          · cases hsome
          · by_cases hnl : n = s.levels.length
            · right; left; omega
            · right; right; omega
      · rw [hres]
        constructor
        · intro hcon; exact absurd hcon (insertCore_ne_err _ _ _ _ _ _ _ _ _)
        · rintro ⟨lh2, ln2, hsome, _⟩; cases hsome
      · rw [hres]
        constructor
        · intro hcon; exact absurd hcon (insertCore_ne_err _ _ _ _ _ _ _ _ _)
        · rintro ⟨lh2, ln2, hsome, _⟩; cases hsome
      · rw [hres, insertCore_panicked_iff, hfront0]
        constructor
        · rintro ⟨hn1, hn2, _⟩
          refine ⟨rfl, fun hlv => hn1 (Or.inl hlv), ?_⟩
          have h1 : ¬(n = 0 + s.levels.length) := fun hc => hn1 (Or.inr hc)
          omega
        · rintro ⟨_, hne, hlt⟩
          refine ⟨?_, ?_, rfl⟩
          · rintro (hlv | heq)
            · exact hne hlv
            · omega
          · omega

/-- C5 witness: on an overlay with last canonical (0, 0) and one level,
the characterization yields success for number 2 with tracked parent 1. -/
theorem insert_validation_characterization_witness :
    (c8s.insert 3 2 1 {}).isOk = true :=
  ((insert_validation_characterization c8s 3 2 1 {}).1).mpr
    (Or.inr (Or.inl ⟨0, 0, by decide, by decide, by decide,
      fun hcon => absurd hcon (by decide), fun _ => by decide⟩))

end StateDb
